import Mathlib

/-!
Verification of the runtime matching and binding algorithm of the
uutils-args argument-parsing library.

The definitions below are a shallow embedding of the code that the derive
macro in src/derive/src/argument.rs generates (functions short_handling,
long_handling, positional_handling and the expression builders), together
with the Error type and the From<lexopt::Error> conversion from
src/src/lib.rs.  Rust strings are Lean String, OsString tokens are Lean
String, boxed dynamic errors are represented by their message String, and
the external value-conversion capability (the FromValue trait) is a
function parameter of type String -> String -> Except Error A.
-/

deriving instance DecidableEq for Except

namespace UutilsArgs

/-- The Error enum of src/src/lib.rs.  Box-ed dynamic errors are modelled
by their message string and OsString by String. -/
inductive Error where
  | MissingValue (option : Option String)
  | MissingPositionalArguments (names : List String)
  | UnexpectedOption (option : String)
  | UnexpectedArgument (value : String)
  | UnexpectedValue (option : String) (value : String)
  | ParsingFailed (option : String) (value : String) (error : String)
  | AmbiguousOption (option : String) (candidates : List String)
  | AmbiguousValue (option : String) (value : String) (candidates : List String)
  | NonUnicodeValue (value : String)
  | Custom (error : String)
deriving DecidableEq

/-- The lexopt::Error enum of the external tokenizer crate, as matched by
the From impl in src/src/lib.rs lines 40-54. -/
inductive LexoptError where
  | MissingValue (option : Option String)
  | UnexpectedOption (option : String)
  | UnexpectedArgument (value : String)
  | UnexpectedValue (option : String) (value : String)
  | ParsingFailed (value : String) (error : String)
  | NonUnicodeValue (value : String)
  | Custom (error : String)
deriving DecidableEq

/-- The From lexopt::Error for Error impl (src/src/lib.rs lines 40-54).
The ParsingFailed arm panics with the message "Conversion not supported";
a panic is modelled as the error side of Except String. -/
def from_lexopt : LexoptError → Except String Error
  | .MissingValue option => .ok (.MissingValue option)
  | .UnexpectedOption s => .ok (.UnexpectedOption s)
  | .UnexpectedArgument s => .ok (.UnexpectedArgument s)
  | .UnexpectedValue option value => .ok (.UnexpectedValue option value)
  | .ParsingFailed _ _ => .error "Conversion not supported"
  | .NonUnicodeValue s => .ok (.NonUnicodeValue s)
  | .Custom e => .ok (.Custom e)

/-- Whether an Error is the ParsingFailed variant. -/
def Error.isParsingFailed : Error → Bool
  | .ParsingFailed _ _ _ => true
  | _ => false

/-- Rust str::starts_with on strings: the second string is a prefix of the
first.  On UTF-8 text the Rust byte-level check agrees with this
character-level check. -/
def rustStartsWith (s p : String) : Bool :=
  p.data.isPrefixOf s.data

/-- The candidate-scanning loop of the code generated by long_handling
(src/derive/src/argument.rs lines 214-224): walk the declared long
options once, stopping at the first exact match, and otherwise
accumulating every option that the input is a prefix of. -/
def scanLongAux (long : String) (candidates : List String) :
    List String → Option String × List String
  | [] => (none, candidates)
  | opt :: rest =>
    if opt = long then (some opt, candidates)
    else if rustStartsWith opt long then scanLongAux long (candidates ++ [opt]) rest
    else scanLongAux long candidates rest

/-- Outcome of resolving a typed long-option name against the declared
spellings. -/
inductive LongResolution where
  | matched (spelling : String)
  | unrecognized
  | ambiguous (option : String) (candidates : List String)
deriving DecidableEq

/-- The resolution match generated by long_handling
(src/derive/src/argument.rs lines 226-234): an exact match wins, else a
unique prefix candidate wins, else zero candidates is unrecognized and
two or more candidates are ambiguous. -/
def resolveLong (options : List String) (long : String) : LongResolution :=
  match scanLongAux long [] options with
  | (some opt, _) => .matched opt
  | (none, [opt]) => .matched opt
  | (none, []) => .unrecognized
  | (none, cs) => .ambiguous long cs

/-- What the generated long-option handler proceeds to after resolution:
the Help sentinel, or the match arm for one resolved spelling. -/
inductive NextArg where
  | help
  | matchArm (long : String)
deriving DecidableEq

/-- The full code generated by long_handling (src/derive/src/argument.rs
lines 160-243): the candidate pool is the help long flags followed by the
declared long flags of every option; after resolution the help spellings
short-circuit to Help, and resolution failures map to the corresponding
errors (lexopt arg.unexpected() renders a long flag as "--name"). -/
def long_handling (helpLongs : List String) (longs : List String)
    (input : String) : Except Error NextArg :=
  if (helpLongs ++ longs).isEmpty then .error (Error.UnexpectedOption ("--" ++ input))
  else
    match resolveLong (helpLongs ++ longs) input with
    | .matched s => if s ∈ helpLongs then .ok .help else .ok (.matchArm s)
    | .unrecognized => .error (Error.UnexpectedOption ("--" ++ input))
    | .ambiguous o cs => .error (Error.AmbiguousOption o cs)

/-- One declared positional slot: the Positional arm of ArgType
(src/derive/src/argument.rs lines 26-29), flattened.  The name is the
variant identifier (used in diagnostics), numArgsStart and numArgsEnd are
num_args.start() and num_args.end(), and last marks the terminal
collect-remaining slot. -/
structure PositionalSlot where
  name : String
  numArgsStart : Nat
  numArgsEnd : Nat
  last : Bool
deriving DecidableEq

/-- usize::MAX, the upper bound an unbounded positional range is stored
as (src/derive/src/attributes.rs line 198). -/
def USIZE_MAX : Nat := 18446744073709551615

/-- Sum of num_args.end() over the first n slots: the cumulative upper
bound spliced into the n-th match arm pattern by positional_handling
(src/derive/src/argument.rs line 269). -/
def cumUpper (slots : List PositionalSlot) (n : Nat) : Nat :=
  ((slots.take n).map (fun s => s.numArgsEnd)).sum

/-- The match-arm scan of the code generated by positional_handling
(src/derive/src/argument.rs lines 276-285): the arm patterns are
0..=lastIndex with lastIndex the running sum of num_args.end(), and the
first arm whose bound reaches the occurrence index wins. -/
def findArm (k : Nat) : Nat → List PositionalSlot → Option PositionalSlot
  | _, [] => none
  | lastIndex, s :: rest =>
    if k ≤ lastIndex + s.numArgsEnd then some s
    else findArm k (lastIndex + s.numArgsEnd) rest

/-- The tokenizer state the generated code reads through lexopt: a
possibly attached (pending) value such as the x of --flag=x or of a
cluster -fx, and the tokens not yet consumed. -/
structure ParserState where
  pending : Option String
  remaining : List String
deriving DecidableEq

/-- lexopt Parser::raw_args as used by last_positional_expression: hand
back every remaining token verbatim, leaving the stream empty. -/
def ParserState.raw_args (st : ParserState) : List String × ParserState :=
  (st.remaining, { st with remaining := [] })

/-- lexopt Parser::value as used by required_value_expression: an
attached value if present, else the next token in the stream taken as a
raw value even if it looks like a flag, else the MissingValue error
naming the current option (mapped into Error by the From impl of
src/src/lib.rs). -/
def ParserState.value (st : ParserState) (option : String) :
    Except Error (String × ParserState) :=
  match st.pending with
  | some v => .ok (v, { st with pending := none })
  | none =>
    match st.remaining with
    | v :: rest => .ok (v, { st with remaining := rest })
    | [] => .error (Error.MissingValue (some option))

/-- lexopt Parser::optional_value as used by optional_value_expression:
an attached value if present, consuming nothing otherwise. -/
def ParserState.optional_value (st : ParserState) : Option String × ParserState :=
  match st.pending with
  | some v => (some v, { st with pending := none })
  | none => (none, st)

/-- The event produced for a positional value: Self::ident(converted)
for one value, or Self::ident(collection) for the terminal slot.  The
variant identifier is represented by the slot name. -/
inductive PosEvent (α : Type) where
  | single (slot : String) (value : α)
  | collection (slot : String) (values : List α)
deriving DecidableEq

/-- The slot a positional event was bound to. -/
def PosEvent.slotName {α : Type} : PosEvent α → String
  | .single n _ => n
  | .collection n _ => n

/-- positional_expression (src/derive/src/argument.rs lines 327-332):
convert the single value (with empty option name) and wrap it in the
variant of the owning slot. -/
def positional_expression {α : Type} (convert : String → String → Except Error α)
    (slot : String) (value : String) (st : ParserState) :
    Except Error (PosEvent α × ParserState) :=
  match convert "" value with
  | .ok v => .ok (.single slot v, st)
  | .error e => .error e

/-- last_positional_expression (src/derive/src/argument.rs lines
334-344): pull every remaining raw token, convert the current value and
all of them in order, and collect the results into one event; the first
conversion failure aborts. -/
def last_positional_expression {α : Type} (convert : String → String → Except Error α)
    (slot : String) (value : String) (st : ParserState) :
    Except Error (PosEvent α × ParserState) :=
  let (raw, st2) := st.raw_args
  match (value :: raw).mapM (fun v => convert "" v) with
  | .ok collection => .ok (.collection slot collection, st2)
  | .error e => .error e

/-- The value handling generated by positional_handling
(src/derive/src/argument.rs lines 279-285): increment the global
occurrence counter, route by the match arms, dispatching the terminal
slot to last_positional_expression and other slots to
positional_expression, and fail with UnexpectedArgument past the last
arm. -/
def value_handling {α : Type} (slots : List PositionalSlot)
    (convert : String → String → Except Error α) (value : String)
    (positional_idx : Nat) (st : ParserState) :
    Except Error (PosEvent α × Nat × ParserState) :=
  match findArm (positional_idx + 1) 0 slots with
  | some s =>
    if s.last then
      match last_positional_expression convert s.name value st with
      | .ok (ev, st2) => .ok (ev, positional_idx + 1, st2)
      | .error e => .error e
    else
      match positional_expression convert s.name value st with
      | .ok (ev, st2) => .ok (ev, positional_idx + 1, st2)
      | .error e => .error e
  | none => .error (Error.UnexpectedArgument value)

/-- The event produced for a resolved flag: Self::ident or
Self::ident(value).  The variant identifier is represented by a
string. -/
inductive OptEvent (α : Type) where
  | noValue (ident : String)
  | withValue (ident : String) (value : α)
deriving DecidableEq

/-- required_value_expression (src/derive/src/argument.rs lines
323-325): Self::ident(FromValue::from_value(&option, parser.value()?)?),
with option the display name of the resolved flag. -/
def required_value_expression {α : Type} (convert : String → String → Except Error α)
    (ident : String) (option : String) (st : ParserState) :
    Except Error (OptEvent α × ParserState) :=
  match st.value option with
  | .error e => .error e
  | .ok (v, st2) =>
    match convert option v with
    | .ok x => .ok (.withValue ident x, st2)
    | .error e => .error e

/-- optional_value_expression (src/derive/src/argument.rs lines
316-321): convert an attached value if there is one, and otherwise bind
the statically declared default expression, consuming nothing. -/
def optional_value_expression {α : Type} (convert : String → String → Except Error α)
    (ident : String) (default : α) (option : String) (st : ParserState) :
    Except Error (OptEvent α × ParserState) :=
  match st.optional_value with
  | (some v, st2) =>
    match convert option v with
    | .ok x => .ok (.withValue ident x, st2)
    | .error e => .error e
  | (none, st2) => .ok (.withValue ident default, st2)

/-- The generator loop of positional_handling (src/derive/src/argument.rs
lines 250-269) that accumulates, over the positional slots in
declaration order, the running cumulative upper bound (lastIndex), the
final minimum_needed value, and one (name, threshold) check for every
slot with a nonzero minimum.  Returns the final minimum_needed and the
checks in declaration order. -/
def missingChecksAux : Nat → Nat → List PositionalSlot → Nat × List (String × Nat)
  | _, minimumNeeded, [] => (minimumNeeded, [])
  | lastIndex, minimumNeeded, s :: rest =>
    if 0 < s.numArgsStart then
      let m := lastIndex + s.numArgsStart
      let r := missingChecksAux (lastIndex + s.numArgsEnd) m rest
      (r.1, (s.name, m) :: r.2)
    else
      missingChecksAux (lastIndex + s.numArgsEnd) minimumNeeded rest

/-- The missing-argument check generated by positional_handling
(src/derive/src/argument.rs lines 287-303): succeed early when the final
occurrence counter reaches the overall minimum_needed, otherwise list
the name of every mandatory slot whose threshold was not reached, in
declaration order, and fail with MissingPositionalArguments when that
list is nonempty. -/
def check_missing (slots : List PositionalSlot) (positional_idx : Nat) :
    Except Error Unit :=
  if (missingChecksAux 0 0 slots).1 ≤ positional_idx then .ok ()
  else if ((((missingChecksAux 0 0 slots).2).filter
      (fun c => positional_idx < c.2)).map (fun c => c.1)).isEmpty then .ok ()
  else .error (Error.MissingPositionalArguments
    ((((missingChecksAux 0 0 slots).2).filter
      (fun c => positional_idx < c.2)).map (fun c => c.1)))

/-- Modelled from the claim wording: the cumulative minimum threshold of
every mandatory slot (a slot whose minimum is nonzero), in declaration
order, where the threshold of a slot is the sum of num_args.end() over
all preceding slots plus its own num_args.start().  The accumulator is
that running sum of preceding upper bounds. -/
def mandatoryThresholdsAux : Nat → List PositionalSlot → List (String × Nat)
  | _, [] => []
  | c, s :: rest =>
    if 0 < s.numArgsStart then
      (s.name, c + s.numArgsStart) :: mandatoryThresholdsAux (c + s.numArgsEnd) rest
    else
      mandatoryThresholdsAux (c + s.numArgsEnd) rest

/-- The cumulative minimum thresholds of the mandatory slots of a
declared slot list, in declaration order. -/
def mandatoryThresholds (slots : List PositionalSlot) : List (String × Nat) :=
  mandatoryThresholdsAux 0 slots

/-! ## Lemmas about the long-option scan -/

lemma scanLongAux_exact (long : String) :
    ∀ (opts : List String) (acc : List String), long ∈ opts →
      ∃ cs, scanLongAux long acc opts = (some long, cs) := by
  intro opts
  induction opts with
  | nil => intro acc h; cases h
  | cons opt rest ih =>
    intro acc hmem
    by_cases heq : opt = long
    · subst heq
      exact ⟨acc, by simp [scanLongAux]⟩
    · have hrest : long ∈ rest := by
        rcases List.mem_cons.mp hmem with h | h
        · exact absurd h.symm heq
        · exact h
      simp only [scanLongAux, if_neg heq]
      by_cases hpre : rustStartsWith opt long = true
      · rw [if_pos hpre]; exact ih (acc ++ [opt]) hrest
      · rw [if_neg hpre]; exact ih acc hrest

lemma scanLongAux_noexact (long : String) :
    ∀ (opts : List String), long ∉ opts → ∀ acc,
      scanLongAux long acc opts =
        (none, acc ++ opts.filter (fun o => rustStartsWith o long)) := by
  intro opts
  induction opts with
  | nil => intro _ acc; simp [scanLongAux]
  | cons opt rest ih =>
    intro hnot acc
    have heq : ¬(opt = long) := fun h => hnot (List.mem_cons.mpr (Or.inl h.symm))
    have hnotrest : long ∉ rest := fun h => hnot (List.mem_cons.mpr (Or.inr h))
    simp only [scanLongAux, if_neg heq]
    by_cases hpre : rustStartsWith opt long = true
    · rw [if_pos hpre, ih hnotrest (acc ++ [opt])]
      simp [List.filter_cons, hpre]
    · rw [if_neg hpre, ih hnotrest acc]
      simp [List.filter_cons, hpre]

lemma resolveLong_nil (long : String) : resolveLong [] long = .unrecognized := by
  simp [resolveLong, scanLongAux]

/-- C1: Long-option resolution success.  For every list of declared long
spellings (in any declaration order) and every non-empty input name: if
some spelling equals the input exactly, resolution succeeds with that
spelling, no matter how many other spellings merely start with the
input; and otherwise, if exactly one spelling has the input as a prefix,
resolution succeeds with that spelling. -/
theorem long_resolution_success (opts : List String) (long : String)
    (_hne : long ≠ "") :
    (long ∈ opts → resolveLong opts long = .matched long) ∧
    (∀ s, long ∉ opts → opts.filter (fun o => rustStartsWith o long) = [s] →
      resolveLong opts long = .matched s) := by
  constructor
  · intro hmem
    obtain ⟨cs, hscan⟩ := scanLongAux_exact long opts [] hmem
    unfold resolveLong
    rw [hscan]
  · intro s hnot hfilter
    unfold resolveLong
    rw [scanLongAux_noexact long opts hnot [], List.nil_append, hfilter]

theorem long_resolution_success_witness :
    resolveLong ["foo", "follow"] "fol" = .matched "follow" :=
  (long_resolution_success ["foo", "follow"] "fol" (by decide)).2 "follow"
    (by decide) (by decide)

/-- C2 counterexample: the candidate list carried by AmbiguousOption is
not sorted.  With declared spellings ["bb", "ba"] and input "b" the code
reports the candidates in declaration order ["bb", "ba"], while the
sorted list of the candidate set would be ["ba", "bb"]. -/
theorem ambiguous_candidates_not_sorted :
    resolveLong ["bb", "ba"] "b" = .ambiguous "b" ["bb", "ba"] ∧
    (["bb", "ba"] : List String) ≠ ["ba", "bb"] := by
  exact ⟨by decide, by decide⟩

/-- C2 (amended): for every set of declared long spellings and every
input that is a prefix of two or more spellings and equal to none of
them, resolution fails with AmbiguousOption carrying the original input
and the candidate list in scan order (help flags first, then declaration
order), which equals exactly the list of spellings that start with the
input. -/
theorem ambiguous_candidates (opts : List String) (long : String)
    (h1 : long ∉ opts)
    (h2 : 2 ≤ (opts.filter (fun o => rustStartsWith o long)).length) :
    resolveLong opts long =
      .ambiguous long (opts.filter (fun o => rustStartsWith o long)) := by
  unfold resolveLong
  rw [scanLongAux_noexact long opts h1 [], List.nil_append]
  rcases hf : opts.filter (fun o => rustStartsWith o long) with _ | ⟨a, _ | ⟨b, l⟩⟩
  · rw [hf] at h2; simp at h2
  · rw [hf] at h2; simp at h2
  · rfl

theorem ambiguous_candidates_witness :
    resolveLong ["follow", "force"] "fo" =
      .ambiguous "fo" (["follow", "force"].filter (fun o => rustStartsWith o "fo")) :=
  ambiguous_candidates ["follow", "force"] "fo" (by decide) (by decide)

/-- C8: Help short-circuit.  Whenever the input long name resolves
(exactly or by unambiguous abbreviation) over the combined candidate
pool of help spellings and declared spellings to a help spelling, the
generated handler yields the Help sentinel instead of a business event;
and the help spellings take part in the same candidate pool, so an
ambiguity over that combined pool is reported as such. -/
theorem help_short_circuit (helpLongs longs : List String) (input : String) :
    (∀ s, resolveLong (helpLongs ++ longs) input = .matched s → s ∈ helpLongs →
      long_handling helpLongs longs input = .ok .help) ∧
    (∀ cs, resolveLong (helpLongs ++ longs) input = .ambiguous input cs →
      long_handling helpLongs longs input =
        .error (Error.AmbiguousOption input cs)) := by
  constructor
  · intro s hres hmem
    unfold long_handling
    by_cases hemp : (helpLongs ++ longs).isEmpty
    · rw [List.isEmpty_iff.mp hemp] at hres
      rw [resolveLong_nil] at hres
      cases hres
    · rw [if_neg hemp, hres]
      simp [hmem]
  · intro cs hres
    unfold long_handling
    by_cases hemp : (helpLongs ++ longs).isEmpty
    · rw [List.isEmpty_iff.mp hemp] at hres
      rw [resolveLong_nil] at hres
      cases hres
    · rw [if_neg hemp, hres]

theorem help_short_circuit_witness :
    long_handling ["help"] ["follow"] "he" = .ok .help :=
  (help_short_circuit ["help"] ["follow"] "he").1 "help" (by decide) (by decide)

/-! ## Lemmas about positional routing -/

lemma cumUpper_zero (slots : List PositionalSlot) : cumUpper slots 0 = 0 := by
  simp [cumUpper]

lemma cumUpper_cons (s : PositionalSlot) (tl : List PositionalSlot) (n : Nat) :
    cumUpper (s :: tl) (n + 1) = s.numArgsEnd + cumUpper tl n := by
  simp [cumUpper, List.take_succ_cons]

lemma findArm_some (k : Nat) :
    ∀ (slots : List PositionalSlot) (c : Nat) (i : Nat) (s : PositionalSlot),
      slots[i]? = some s → k ≤ c + cumUpper slots (i + 1) →
      (∀ j, j < i → c + cumUpper slots (j + 1) < k) →
      findArm k c slots = some s := by
  intro slots
  induction slots with
  | nil => intro c i s hget _ _; simp at hget
  | cons hd tl ih =>
    intro c i s hget hle hlt
    cases i with
    | zero =>
      simp at hget
      subst hget
      rw [cumUpper_cons, cumUpper_zero] at hle
      simp only [findArm]
      rw [if_pos (by omega)]
    | succ j =>
      have h0 := hlt 0 (Nat.succ_pos j)
      rw [cumUpper_cons, cumUpper_zero] at h0
      rw [cumUpper_cons] at hle
      simp only [findArm]
      rw [if_neg (by omega)]
      apply ih (c + hd.numArgsEnd) j s
      · simpa using hget
      · omega
      · intro j2 hj2
        have := hlt (j2 + 1) (by omega)
        rw [cumUpper_cons] at this
        omega

lemma findArm_none (k : Nat) :
    ∀ (slots : List PositionalSlot) (c : Nat),
      c + cumUpper slots slots.length < k → findArm k c slots = none := by
  intro slots
  induction slots with
  | nil => intro c _; rfl
  | cons hd tl ih =>
    intro c h
    rw [List.length_cons, cumUpper_cons] at h
    simp only [findArm]
    rw [if_neg (by omega)]
    apply ih
    omega

lemma positional_expression_slotName {α : Type}
    (convert : String → String → Except Error α) (slot value : String)
    (st : ParserState) (ev : PosEvent α) (st2 : ParserState) :
    positional_expression convert slot value st = .ok (ev, st2) →
    ev.slotName = slot := by
  intro h
  unfold positional_expression at h
  split at h
  · cases h
    rfl
  · cases h

lemma last_positional_expression_slotName {α : Type}
    (convert : String → String → Except Error α) (slot value : String)
    (st : ParserState) (ev : PosEvent α) (st2 : ParserState) :
    last_positional_expression convert slot value st = .ok (ev, st2) →
    ev.slotName = slot := by
  intro h
  unfold last_positional_expression at h
  split at h
  split at h
  · cases h
    rfl
  · cases h

lemma value_handling_slotName {α : Type} (slots : List PositionalSlot)
    (convert : String → String → Except Error α) (value : String)
    (idx : Nat) (st : ParserState) (s : PositionalSlot)
    (hfa : findArm (idx + 1) 0 slots = some s) :
    ∀ (ev : PosEvent α) (n : Nat) (st2 : ParserState),
      value_handling slots convert value idx st = .ok (ev, n, st2) →
      ev.slotName = s.name := by
  intro ev n st2 hok
  unfold value_handling at hok
  split at hok
  · rename_i s' heq
    have hs : s' = s := by
      rw [hfa] at heq
      injection heq with h
      exact h.symm
    subst hs
    split at hok
    · split at hok
      · cases hok
        exact last_positional_expression_slotName _ _ _ _ _ _ (by assumption)
      · cases hok
    · split at hok
      · cases hok
        exact positional_expression_slotName _ _ _ _ _ _ (by assumption)
      · cases hok
  · cases hok

/-- C3: Positional routing.  The 1-based occurrence index handled by one
invocation of the generated value handling is positional_idx + 1; the
value is routed to the first slot in declaration order whose cumulative
upper bound (sum of num_args.end() over itself and all preceding slots)
reaches that index, and when the index exceeds the cumulative upper
bound of all slots the parse fails with UnexpectedArgument. -/
theorem positional_routing {α : Type} (slots : List PositionalSlot)
    (convert : String → String → Except Error α) (value : String)
    (idx : Nat) (st : ParserState) :
    (∀ (i : Nat) (s : PositionalSlot), slots[i]? = some s →
      idx + 1 ≤ cumUpper slots (i + 1) →
      (∀ j, j < i → cumUpper slots (j + 1) < idx + 1) →
      findArm (idx + 1) 0 slots = some s ∧
      ∀ (ev : PosEvent α) (n : Nat) (st2 : ParserState),
        value_handling slots convert value idx st = .ok (ev, n, st2) →
        ev.slotName = s.name) ∧
    (cumUpper slots slots.length < idx + 1 →
      value_handling slots convert value idx st =
        .error (Error.UnexpectedArgument value)) := by
  constructor
  · intro i s hget hle hlt
    have hfa : findArm (idx + 1) 0 slots = some s := by
      apply findArm_some (idx + 1) slots 0 i s hget
      · omega
      · intro j hj
        have := hlt j hj
        omega
    exact ⟨hfa, value_handling_slotName slots convert value idx st s hfa⟩
  · intro h
    unfold value_handling
    rw [findArm_none (idx + 1) slots 0 (by omega)]

theorem positional_routing_witness :
    findArm 1 0 [⟨"FILE1", 1, 1, false⟩, ⟨"FILE2", 0, 1, false⟩,
        ⟨"REST", 0, USIZE_MAX, true⟩] =
      some ⟨"FILE1", 1, 1, false⟩ :=
  ((positional_routing
      [⟨"FILE1", 1, 1, false⟩, ⟨"FILE2", 0, 1, false⟩, ⟨"REST", 0, USIZE_MAX, true⟩]
      (fun _ v => Except.ok (v : String)) "a" 0 ⟨none, []⟩).1 0
    ⟨"FILE1", 1, 1, false⟩ (by decide) (by decide)
    (by intro j hj; omega)).1

/-- C5: Terminal slot capture.  When the occurrence is routed to the
terminal collect-remaining slot, that single call consumes every token
still remaining in the stream (whatever it looks like), converts the
current value and all of them in order, and binds them into that slot
as one single collection event, leaving the stream empty so that nothing
further is processed; the first conversion failure aborts with its
error. -/
theorem terminal_slot_capture {α : Type} (slots : List PositionalSlot)
    (convert : String → String → Except Error α) (value : String)
    (idx : Nat) (st : ParserState) (s : PositionalSlot)
    (hfind : findArm (idx + 1) 0 slots = some s) (hlast : s.last = true) :
    (∀ l, (value :: st.remaining).mapM (fun v => convert "" v) = .ok l →
      value_handling slots convert value idx st =
        .ok (.collection s.name l, idx + 1, ⟨st.pending, []⟩)) ∧
    (∀ e, (value :: st.remaining).mapM (fun v => convert "" v) = .error e →
      value_handling slots convert value idx st = .error e) := by
  constructor
  · intro l hmap
    unfold value_handling last_positional_expression ParserState.raw_args
    simp only [hfind, hlast, if_true, hmap]
  · intro e hmap
    unfold value_handling last_positional_expression ParserState.raw_args
    simp only [hfind, hlast, if_true, hmap]

theorem terminal_slot_capture_witness :
    value_handling [⟨"REST", 0, USIZE_MAX, true⟩] (fun _ v => Except.ok v)
      "a" 0 ⟨none, ["-b", "c"]⟩ =
      .ok (.collection "REST" ["a", "-b", "c"], 1, ⟨none, []⟩) :=
  (terminal_slot_capture [⟨"REST", 0, USIZE_MAX, true⟩] (fun _ v => Except.ok v)
      "a" 0 ⟨none, ["-b", "c"]⟩ ⟨"REST", 0, USIZE_MAX, true⟩
      (by decide) (by decide)).1 ["a", "-b", "c"] (by rfl)

/-- C9 counterexample: the occurrence counter does not count every value
routed into the terminal slot collection.  With a single terminal slot
and stream ["b", "c"] behind the current value "a", one routing call
collects three values but leaves the counter at 1, so the final counter
differs from the total number of positional values consumed. -/
theorem counter_not_per_value :
    value_handling [⟨"files", 0, USIZE_MAX, true⟩] (fun _ v => Except.ok v)
      "a" 0 ⟨none, ["b", "c"]⟩ =
      .ok (.collection "files" ["a", "b", "c"], 1, ⟨none, []⟩) ∧
    (1 : Nat) ≠ (["a", "b", "c"] : List String).length := by
  exact ⟨by decide, by decide⟩

/-- C9 (amended): the global positional-occurrence counter is
incremented exactly once per invocation of the generated positional
value handling, even when that invocation routes to the terminal slot
and collects several remaining values at once; so after a parse the
counter equals the number of routing calls, not the total number of
positional values consumed. -/
theorem counter_incremented_once_per_call {α : Type}
    (slots : List PositionalSlot) (convert : String → String → Except Error α)
    (value : String) (idx : Nat) (st : ParserState) :
    ∀ (ev : PosEvent α) (n : Nat) (st2 : ParserState),
      value_handling slots convert value idx st = .ok (ev, n, st2) →
      n = idx + 1 := by
  intro ev n st2 hok
  unfold value_handling at hok
  split at hok
  · split at hok
    · split at hok
      · cases hok; rfl
      · cases hok
    · split at hok
      · cases hok; rfl
      · cases hok
  · cases hok

theorem counter_incremented_once_per_call_witness :
    (1 : Nat) = 0 + 1 :=
  counter_incremented_once_per_call [⟨"files", 0, USIZE_MAX, true⟩]
    (fun _ v => Except.ok v) "a" 0 ⟨none, ["b", "c"]⟩
    (.collection "files" ["a", "b", "c"]) 1 ⟨none, []⟩ (by decide)

/-! ## Lemmas about the missing-positional check -/

lemma missingChecksAux_snd :
    ∀ (slots : List PositionalSlot) (c m : Nat),
      (missingChecksAux c m slots).2 = mandatoryThresholdsAux c slots := by
  intro slots
  induction slots with
  | nil => intro c m; rfl
  | cons s rest ih =>
    intro c m
    simp only [missingChecksAux, mandatoryThresholdsAux]
    by_cases h : 0 < s.numArgsStart
    · rw [if_pos h, if_pos h]
      simp [ih]
    · rw [if_neg h, if_neg h]
      exact ih (c + s.numArgsEnd) m

lemma missingChecksAux_fst_mem :
    ∀ (slots : List PositionalSlot) (c m : Nat),
      (missingChecksAux c m slots).1 = m ∨
      (missingChecksAux c m slots).1 ∈
        (mandatoryThresholdsAux c slots).map (fun p => p.2) := by
  intro slots
  induction slots with
  | nil => intro c m; left; rfl
  | cons s rest ih =>
    intro c m
    simp only [missingChecksAux, mandatoryThresholdsAux]
    by_cases h : 0 < s.numArgsStart
    · rw [if_pos h, if_pos h]
      rcases ih (c + s.numArgsEnd) (c + s.numArgsStart) with h2 | h2
      · right
        simp [h2]
      · right
        simp only [List.map_cons, List.mem_cons]
        right
        exact h2
    · rw [if_neg h, if_neg h]
      exact ih (c + s.numArgsEnd) m

lemma mandatoryThresholdsAux_le :
    ∀ (slots : List PositionalSlot) (c : Nat),
      ∀ x ∈ (mandatoryThresholdsAux c slots).map (fun p => p.2), c ≤ x := by
  intro slots
  induction slots with
  | nil => intro c x hx; simp [mandatoryThresholdsAux] at hx
  | cons s rest ih =>
    intro c x hx
    simp only [mandatoryThresholdsAux] at hx
    by_cases h : 0 < s.numArgsStart
    · rw [if_pos h] at hx
      simp only [List.map_cons, List.mem_cons] at hx
      rcases hx with hx | hx
      · omega
      · have := ih (c + s.numArgsEnd) x hx
        omega
    · rw [if_neg h] at hx
      have := ih (c + s.numArgsEnd) x hx
      omega

lemma thresholds_le_fst :
    ∀ (slots : List PositionalSlot) (c m : Nat),
      (∀ s ∈ slots, s.numArgsStart ≤ s.numArgsEnd) →
      ∀ x ∈ (mandatoryThresholdsAux c slots).map (fun p => p.2),
        x ≤ (missingChecksAux c m slots).1 := by
  intro slots
  induction slots with
  | nil => intro c m _ x hx; simp [mandatoryThresholdsAux] at hx
  | cons s rest ih =>
    intro c m hvalid x hx
    have hvs : s.numArgsStart ≤ s.numArgsEnd := hvalid s (List.mem_cons_self s rest)
    have hvrest : ∀ t ∈ rest, t.numArgsStart ≤ t.numArgsEnd :=
      fun t ht => hvalid t (List.mem_cons_of_mem s ht)
    simp only [mandatoryThresholdsAux, missingChecksAux] at hx ⊢
    by_cases h : 0 < s.numArgsStart
    · rw [if_pos h] at hx
      rw [if_pos h]
      simp only [List.map_cons, List.mem_cons] at hx
      rcases hx with hx | hx
      · subst hx
        rcases missingChecksAux_fst_mem rest (c + s.numArgsEnd) (c + s.numArgsStart)
          with h2 | h2
        · simp [h2]
        · have := mandatoryThresholdsAux_le rest (c + s.numArgsEnd) _ h2
          simp only []
          omega
      · have := ih (c + s.numArgsEnd) (c + s.numArgsStart) hvrest x hx
        simpa using this
    · rw [if_neg h] at hx
      rw [if_neg h]
      exact ih (c + s.numArgsEnd) m hvrest x hx

lemma foldr_max_le (l : List Nat) (n : Nat) :
    l.foldr max 0 ≤ n ↔ ∀ x ∈ l, x ≤ n := by
  induction l with
  | nil => simp
  | cons a l ih =>
    simp only [List.foldr_cons, List.mem_cons, Nat.max_le, ih]
    constructor
    · rintro ⟨h1, h2⟩ x (rfl | hx)
      · exact h1
      · exact h2 x hx
    · intro h
      exact ⟨h a (Or.inl rfl), fun x hx => h x (Or.inr hx)⟩

/-- C4: Completeness check.  With every slot range well-formed (minimum
at most maximum, as the data model requires), the generated check
succeeds exactly when the final occurrence counter reaches the largest
cumulative minimum threshold recorded for the mandatory slots (those
with a nonzero minimum), where the threshold of a slot is the sum of
num_args.end() over all preceding slots plus its own num_args.start();
otherwise it fails with MissingPositionalArguments listing the name of
every mandatory slot whose threshold was not reached, in declaration
order. -/
theorem check_missing_characterization (slots : List PositionalSlot) (n : Nat)
    (hvalid : ∀ s ∈ slots, s.numArgsStart ≤ s.numArgsEnd) :
    (check_missing slots n = .ok () ↔
      ((mandatoryThresholds slots).map (fun p => p.2)).foldr max 0 ≤ n) ∧
    (¬ ((mandatoryThresholds slots).map (fun p => p.2)).foldr max 0 ≤ n →
      check_missing slots n = .error (Error.MissingPositionalArguments
        (((mandatoryThresholds slots).filter (fun p => n < p.2)).map
          (fun p => p.1)))) := by
  unfold mandatoryThresholds
  have hsnd := missingChecksAux_snd slots 0 0
  have hA := thresholds_le_fst slots 0 0 hvalid
  have hB := missingChecksAux_fst_mem slots 0 0
  constructor
  · constructor
    · intro hok
      rw [foldr_max_le]
      intro x hx
      by_cases h1 : (missingChecksAux 0 0 slots).1 ≤ n
      · have := hA x hx
        omega
      · unfold check_missing at hok
        rw [if_neg h1] at hok
        by_cases h2 : ((((missingChecksAux 0 0 slots).2).filter
            (fun c => n < c.2)).map (fun c => c.1)).isEmpty = true
        · have hfil : ((missingChecksAux 0 0 slots).2).filter
              (fun c => n < c.2) = [] :=
            List.map_eq_nil_iff.mp (List.isEmpty_iff.mp h2)
          rw [hsnd] at hfil
          obtain ⟨p, hp, hpx⟩ := List.mem_map.mp hx
          have hnp : ¬ decide (n < p.2) = true := List.filter_eq_nil_iff.mp hfil p hp
          simp only [decide_eq_true_eq] at hnp
          omega
        · rw [if_neg h2] at hok
          cases hok
    · intro hall
      have hall2 : ∀ x ∈ (mandatoryThresholdsAux 0 slots).map (fun p => p.2),
          x ≤ n := (foldr_max_le _ n).mp hall
      have hF : (missingChecksAux 0 0 slots).1 ≤ n := by
        rcases hB with h | h
        · omega
        · exact hall2 _ h
      unfold check_missing
      rw [if_pos hF]
  · intro hgt
    have hex : ∃ x ∈ (mandatoryThresholdsAux 0 slots).map (fun p => p.2),
        n < x := by
      by_contra hcon
      push_neg at hcon
      exact hgt ((foldr_max_le _ n).mpr fun x hx => hcon x hx)
    obtain ⟨x, hx, hnx⟩ := hex
    have hFx : x ≤ (missingChecksAux 0 0 slots).1 := hA x hx
    obtain ⟨p, hp, hpx⟩ := List.mem_map.mp hx
    have hpfil : p ∈ ((missingChecksAux 0 0 slots).2).filter
        (fun c => n < c.2) := by
      rw [hsnd]
      refine List.mem_filter.mpr ⟨hp, ?_⟩
      simp only [decide_eq_true_eq]
      omega
    have hne2 : ¬ ((((missingChecksAux 0 0 slots).2).filter
        (fun c => n < c.2)).map (fun c => c.1)).isEmpty = true := by
      intro hemp
      have h0 := List.map_eq_nil_iff.mp (List.isEmpty_iff.mp hemp)
      rw [h0] at hpfil
      cases hpfil
    unfold check_missing
    rw [if_neg (by omega), if_neg hne2, hsnd]

theorem check_missing_characterization_witness :
    check_missing [⟨"FILE1", 1, 1, false⟩, ⟨"FILE2", 0, 1, false⟩,
        ⟨"REST", 0, USIZE_MAX, true⟩] 0 =
      .error (Error.MissingPositionalArguments
        (((mandatoryThresholds [⟨"FILE1", 1, 1, false⟩, ⟨"FILE2", 0, 1, false⟩,
            ⟨"REST", 0, USIZE_MAX, true⟩]).filter (fun p => 0 < p.2)).map
          (fun p => p.1))) :=
  (check_missing_characterization
    [⟨"FILE1", 1, 1, false⟩, ⟨"FILE2", 0, 1, false⟩, ⟨"REST", 0, USIZE_MAX, true⟩]
    0 (by decide)).2 (by decide)

/-- C6: Required-value flags.  The generated expression consumes the
attached value when one is present; with no attached value it consumes
the next token in the stream as a raw value, whatever that token looks
like; and with no attached value and no further token it fails with
MissingValue naming the option. -/
theorem required_value_policy {α : Type}
    (convert : String → String → Except Error α) (ident option : String)
    (st : ParserState) :
    (∀ v x, st.pending = some v → convert option v = .ok x →
      required_value_expression convert ident option st =
        .ok (.withValue ident x, ⟨none, st.remaining⟩)) ∧
    (∀ t rest x, st.pending = none → st.remaining = t :: rest →
      convert option t = .ok x →
      required_value_expression convert ident option st =
        .ok (.withValue ident x, ⟨none, rest⟩)) ∧
    (st.pending = none → st.remaining = [] →
      required_value_expression convert ident option st =
        .error (Error.MissingValue (some option))) := by
  obtain ⟨pending, remaining⟩ := st
  refine ⟨?_, ?_, ?_⟩
  · intro v x hp hc
    cases hp
    unfold required_value_expression ParserState.value
    simp only [hc]
  · intro t rest x hp hr hc
    cases hp
    cases hr
    unfold required_value_expression ParserState.value
    simp only [hc]
  · intro hp hr
    cases hp
    cases hr
    rfl

theorem required_value_policy_witness :
    required_value_expression (fun _ v => Except.ok v) "Name" "--name"
      ⟨none, []⟩ = .error (Error.MissingValue (some "--name")) :=
  (required_value_policy (fun _ v => Except.ok v) "Name" "--name"
    ⟨none, []⟩).2.2 rfl rfl

/-- C7: Optional-value flags.  With an attached value the generated
expression consumes and converts it; with no attached value the produced
event carries the statically declared default expression (not an absence
marker) and no token is consumed from the stream. -/
theorem optional_value_policy {α : Type}
    (convert : String → String → Except Error α) (ident : String)
    (default : α) (option : String) (st : ParserState) :
    (st.pending = none →
      optional_value_expression convert ident default option st =
        .ok (.withValue ident default, st)) ∧
    (∀ v x, st.pending = some v → convert option v = .ok x →
      optional_value_expression convert ident default option st =
        .ok (.withValue ident x, ⟨none, st.remaining⟩)) := by
  obtain ⟨pending, remaining⟩ := st
  constructor
  · intro hp
    cases hp
    rfl
  · intro v x hp hc
    cases hp
    unfold optional_value_expression ParserState.optional_value
    simp only [hc]

theorem optional_value_policy_witness :
    optional_value_expression (fun _ v => Except.ok v) "Color" "auto"
      "--color" ⟨none, ["next"]⟩ =
      .ok (.withValue "Color" "auto", ⟨none, ["next"]⟩) :=
  (optional_value_policy (fun _ v => Except.ok v) "Color" "auto" "--color"
    ⟨none, ["next"]⟩).1 rfl

/-- C10: The conversion from tokenizer errors is partial.  It maps
MissingValue, UnexpectedOption, UnexpectedArgument, UnexpectedValue,
NonUnicodeValue and Custom to the same-named variants; it panics with
"Conversion not supported" on ParsingFailed; no error it produces is
Error.ParsingFailed; and the panic branch is reached exactly on
ParsingFailed inputs, so it is unreachable precisely when the tokenizer
is never asked to perform value conversion itself. -/
theorem from_lexopt_characterization :
    (∀ o, from_lexopt (.MissingValue o) = .ok (.MissingValue o)) ∧
    (∀ s, from_lexopt (.UnexpectedOption s) = .ok (.UnexpectedOption s)) ∧
    (∀ s, from_lexopt (.UnexpectedArgument s) = .ok (.UnexpectedArgument s)) ∧
    (∀ o v, from_lexopt (.UnexpectedValue o v) = .ok (.UnexpectedValue o v)) ∧
    (∀ s, from_lexopt (.NonUnicodeValue s) = .ok (.NonUnicodeValue s)) ∧
    (∀ e, from_lexopt (.Custom e) = .ok (.Custom e)) ∧
    (∀ v e, from_lexopt (.ParsingFailed v e) =
      .error "Conversion not supported") ∧
    (∀ le r, from_lexopt le = .ok r → r.isParsingFailed = false) ∧
    (∀ le, (∃ m, from_lexopt le = .error m) ↔ ∃ v e, le = .ParsingFailed v e) := by
  refine ⟨fun _ => rfl, fun _ => rfl, fun _ => rfl, fun _ _ => rfl, fun _ => rfl,
    fun _ => rfl, fun _ _ => rfl, ?_, ?_⟩
  · intro le r h
    cases le <;>
      first
        | (injection h with h2; subst h2; rfl)
        | simp [from_lexopt] at h
  · intro le
    cases le <;> simp [from_lexopt]

theorem from_lexopt_characterization_witness :
    Error.isParsingFailed (Error.Custom "boom") = false :=
  from_lexopt_characterization.2.2.2.2.2.2.2.1 (.Custom "boom")
    (.Custom "boom") rfl

end UutilsArgs
